import Mathlib

/-!
Verification of the bounded top-K retention queue (`src/queue.rs`).

The source keeps a capacity-bounded, ascending-sorted vector of
`Neighbor { id : u32, dist : f32 }` values, ordered lexicographically by
`(dist, id)`.  `insert` locates the would-be position with
`binary_search_by`, does nothing when the exact pair is found or when the
position is at or past the capacity, and otherwise pops the worst element
when full before inserting at the located position.
-/

namespace PQueue

/-- Model of an `f32` score.  The source only applies `<` and `==` to
scores, so a score is modelled as either NaN or a rational value: IEEE
`<` and `==` are false whenever either operand is NaN and agree with the
rational order and equality otherwise. -/
inductive Score where
  | nan : Score
  | val : ℚ → Score
deriving DecidableEq, Repr

/-- IEEE `<` on modelled scores: false when either side is NaN. -/
def Score.flt : Score → Score → Bool
  | .val a, .val b => decide (a < b)
  | _, _ => false

/-- IEEE `==` on modelled scores: false when either side is NaN. -/
def Score.feq : Score → Score → Bool
  | .val a, .val b => decide (a = b)
  | _, _ => false

/-- `struct Neighbor { id: u32, dist: f32 }`.  `id` is only ever compared
with `u32::cmp`, so it is modelled as a natural number. -/
structure Neighbor where
  id : ℕ
  dist : Score
deriving DecidableEq, Repr

instance : Inhabited Neighbor := ⟨⟨0, Score.val 0⟩⟩

/-- `struct Queue { neighbors: Vec<Neighbor>, capacity: NonZeroUsize }`.
The vector is modelled as a list; reserved storage is not observable. -/
structure Queue where
  neighbors : List Neighbor
  capacity : ℕ
deriving DecidableEq, Repr

/-- Model of `NonZeroUsize::new`: the only way the caller of
`Queue::with_capacity` can produce a capacity value, refusing zero. -/
def nonZeroUsizeNew (n : ℕ) : Option ℕ :=
  if n = 0 then none else some n

/-- `Queue::with_capacity`: an empty queue with the given capacity. -/
def Queue.with_capacity (capacity : ℕ) : Queue :=
  { neighbors := [], capacity := capacity }

/-- `Queue::as_slice`: the read-only snapshot of the sorted contents. -/
def Queue.as_slice (q : Queue) : List Neighbor :=
  q.neighbors

/-- Result of `slice::binary_search_by`: `ok i` is Rust's `Ok(i)`
(an element at index `i` compared `Equal`), `err p` is `Err(p)`
(the insertion position). -/
inductive SearchResult where
  | ok : ℕ → SearchResult
  | err : ℕ → SearchResult
deriving DecidableEq, Repr

/-- The comparison closure from `Queue::insert`:
`if other.dist < neighbor.dist { Less } else if other.dist == neighbor.dist
{ other.id.cmp(&neighbor.id) } else { Greater }`. -/
def cmp (neighbor other : Neighbor) : Ordering :=
  if other.dist.flt neighbor.dist then .lt
  else if other.dist.feq neighbor.dist then compare other.id neighbor.id
  else .gt

/-- The loop of `slice::binary_search_by`, maintaining `left ≤ right`,
probing `mid = left + (right - left) / 2` and narrowing to
`[mid+1, right)` on `Less`, `[left, mid)` on `Greater`, returning
`Ok(mid)` on `Equal` and `Err(left)` once the window is empty.  `fuel`
bounds the number of iterations; the window shrinks strictly each
iteration, and when the window is empty both the `0` and successor cases
return `Err(left)`, so any `fuel ≥ right - left` (the entry point passes
the slice length) produces exactly the loop's result. -/
def bsLoop (xs : List Neighbor) (f : Neighbor → Ordering) :
    ℕ → ℕ → ℕ → SearchResult
  | 0, left, _ => .err left
  | fuel + 1, left, right =>
    if left < right then
      let mid := left + (right - left) / 2
      match f (xs.getD mid default) with
      | .lt => bsLoop xs f fuel (mid + 1) right
      | .eq => .ok mid
      | .gt => bsLoop xs f fuel left mid
    else .err left

/-- `slice::binary_search_by` on the whole slice. -/
def binary_search_by (xs : List Neighbor) (f : Neighbor → Ordering) :
    SearchResult :=
  bsLoop xs f xs.length 0 xs.length

/-- `Queue::insert`: on `Err(pos)` with `pos < capacity`, pop the last
element when the queue is full, then insert at `pos`; otherwise (found,
or `pos ≥ capacity`) do nothing. -/
def Queue.insert (q : Queue) (neighbor : Neighbor) : Queue :=
  match binary_search_by q.neighbors (cmp neighbor) with
  | .err pos =>
    if pos < q.capacity then
      let kept :=
        if q.neighbors.length = q.capacity then q.neighbors.dropLast
        else q.neighbors
      { q with neighbors := kept.insertIdx pos neighbor }
    else q
  | .ok _ => q

/-- `Queue::clear`: `self.neighbors.clear()`. -/
def Queue.clear (q : Queue) : Queue :=
  { q with neighbors := [] }

/-- One mutating operation of the public interface. -/
inductive Op where
  | ins : Neighbor → Op
  | clr : Op
deriving DecidableEq, Repr

/-- Apply one operation. -/
def Queue.step (q : Queue) : Op → Queue
  | .ins n => q.insert n
  | .clr => q.clear

/-- Run a sequence of operations from a starting state. -/
def Queue.run (q : Queue) (ops : List Op) : Queue :=
  ops.foldl Queue.step q

/-- An operation only inserts comparable (non-NaN) scores. -/
def Op.comparable : Op → Prop
  | .ins n => n.dist ≠ Score.nan
  | .clr => True

instance : DecidablePred Op.comparable := by
  intro op; cases op <;> simp [Op.comparable] <;> infer_instance

/-- The strict ascending order maintained by the queue: lexicographic on
`(score, identifier)`, score compared by IEEE `<`, identifier as
tie-break. -/
def pairLt (a b : Neighbor) : Prop :=
  a.dist.flt b.dist = true ∨ (a.dist = b.dist ∧ a.id < b.id)

instance : DecidableRel pairLt := by
  intro a b; unfold pairLt; infer_instance

/-- All entries of a list carry comparable (non-NaN) scores. -/
def noNaNs (l : List Neighbor) : Prop :=
  ∀ x ∈ l, x.dist ≠ Score.nan

instance : DecidablePred noNaNs := by
  intro l; unfold noNaNs; infer_instance

/-- The queue invariant: length bounded by capacity, entries strictly
ascending by `(score, identifier)`, all scores comparable. -/
def Inv (q : Queue) : Prop :=
  q.neighbors.length ≤ q.capacity ∧
    q.neighbors.Pairwise pairLt ∧ noNaNs q.neighbors

/-- Mathematical canonical form of an unbounded insertion stream:
sorted-insert of an entry into a strictly `pairLt`-sorted list, leaving
the list unchanged when the exact entry is already present.  Used to
characterise the queue state as the `capacity`-prefix of the sorted list
of all distinct entries seen. -/
def insertSorted (e : Neighbor) : List Neighbor → List Neighbor
  | [] => [e]
  | x :: t =>
    if pairLt x e then x :: insertSorted e t
    else if x = e then x :: t
    else e :: x :: t

/-- The sorted list of all distinct entries of a stream, oldest first. -/
def sortedOfStream (l : List Neighbor) : List Neighbor :=
  l.foldl (fun F e => insertSorted e F) []

/-! ### Order facts about `pairLt` and the comparison closure -/

theorem Score.exists_val {s : Score} (h : s ≠ Score.nan) : ∃ q : ℚ, s = Score.val q := by
  cases s with
  | nan => exact absurd rfl h
  | val q => exact ⟨q, rfl⟩

theorem Score.flt_nan_right (s : Score) : s.flt Score.nan = false := by
  cases s <;> rfl

theorem Score.feq_nan_right (s : Score) : s.feq Score.nan = false := by
  cases s <;> rfl

theorem pairLt_irrefl (a : Neighbor) : ¬ pairLt a a := by
  obtain ⟨i, d⟩ := a
  rintro (h | ⟨-, h⟩)
  · cases d <;> simp [Score.flt] at h
  · omega

theorem pairLt_ne {a b : Neighbor} (h : pairLt a b) : a ≠ b := by
  rintro rfl; exact pairLt_irrefl a h

theorem pairLt_asymm {a b : Neighbor} (h : pairLt a b) : ¬ pairLt b a := by
  intro h'
  obtain ⟨ia, da⟩ := a
  obtain ⟨ib, db⟩ := b
  cases da <;> cases db <;> simp [pairLt, Score.flt] at h h'
  · omega
  · rcases h with h | ⟨he, hi⟩ <;> rcases h' with h' | ⟨he', hi'⟩
    · exact absurd h' (not_lt.mpr h.le)
    · rw [he'] at h; exact lt_irrefl _ h
    · rw [he] at h'; exact lt_irrefl _ h'
    · omega

theorem pairLt_trans {a b c : Neighbor} (h1 : pairLt a b) (h2 : pairLt b c) :
    pairLt a c := by
  obtain ⟨ia, da⟩ := a
  obtain ⟨ib, db⟩ := b
  obtain ⟨ic, dc⟩ := c
  cases da <;> cases db <;> cases dc <;>
    simp [pairLt, Score.flt] at h1 h2 ⊢
  · omega
  · rcases h1 with h1 | ⟨he1, hi1⟩ <;> rcases h2 with h2 | ⟨he2, hi2⟩
    · exact Or.inl (h1.trans h2)
    · exact Or.inl (he2 ▸ h1)
    · exact Or.inl (he1 ▸ h2)
    · exact Or.inr ⟨he1.trans he2, hi1.trans hi2⟩

theorem pairLt_mk_iff {ia ib : ℕ} {qa qb : ℚ} :
    pairLt ⟨ia, .val qa⟩ ⟨ib, .val qb⟩ ↔ (qa < qb ∨ (qa = qb ∧ ia < ib)) := by
  unfold pairLt
  simp [Score.flt]

theorem cmp_mk_cases {ie ix : ℕ} {qe qx : ℚ} :
    cmp ⟨ie, .val qe⟩ ⟨ix, .val qx⟩
      = (if qx < qe then Ordering.lt
         else if qx = qe then compare ix ie else Ordering.gt) := by
  show (if decide (qx < qe) = true then Ordering.lt
        else if decide (qx = qe) = true then compare ix ie else Ordering.gt) = _
  by_cases h1 : qx < qe
  · simp [h1]
  · by_cases h2 : qx = qe
    · simp [h1, h2]
    · simp [h1, h2]

theorem cmp_eq_lt_iff {e x : Neighbor} (he : e.dist ≠ Score.nan)
    (hx : x.dist ≠ Score.nan) : cmp e x = .lt ↔ pairLt x e := by
  obtain ⟨ie, de⟩ := e
  obtain ⟨ix, dx⟩ := x
  obtain ⟨qe, rfl⟩ := Score.exists_val he
  obtain ⟨qx, rfl⟩ := Score.exists_val hx
  rw [cmp_mk_cases, pairLt_mk_iff]
  by_cases h1 : qx < qe
  · simp [h1]
  · by_cases h2 : qx = qe
    · simp [h1, h2, Nat.compare_eq_lt]
    · simp [h1, h2]

theorem cmp_eq_gt_iff {e x : Neighbor} (he : e.dist ≠ Score.nan)
    (hx : x.dist ≠ Score.nan) : cmp e x = .gt ↔ pairLt e x := by
  obtain ⟨ie, de⟩ := e
  obtain ⟨ix, dx⟩ := x
  obtain ⟨qe, rfl⟩ := Score.exists_val he
  obtain ⟨qx, rfl⟩ := Score.exists_val hx
  rw [cmp_mk_cases, pairLt_mk_iff]
  by_cases h1 : qx < qe
  · simp [h1, not_lt.mpr h1.le, ne_of_gt h1]
  · by_cases h2 : qx = qe
    · subst h2
      simp [h1, Nat.compare_eq_gt]
    · have h3 : qe < qx := lt_of_le_of_ne (not_lt.mp h1) (Ne.symm h2)
      simp [h1, h2, h3]

theorem cmp_eq_eq_iff {e x : Neighbor} (he : e.dist ≠ Score.nan)
    (hx : x.dist ≠ Score.nan) : cmp e x = .eq ↔ x = e := by
  obtain ⟨ie, de⟩ := e
  obtain ⟨ix, dx⟩ := x
  obtain ⟨qe, rfl⟩ := Score.exists_val he
  obtain ⟨qx, rfl⟩ := Score.exists_val hx
  rw [cmp_mk_cases]
  simp only [Neighbor.mk.injEq, Score.val.injEq]
  by_cases h1 : qx < qe
  · simp [h1, ne_of_lt h1]
  · by_cases h2 : qx = qe
    · subst h2
      simp [h1, Nat.compare_eq_eq]
    · simp [h1, h2]

theorem cmp_nan_eq_gt {e : Neighbor} (x : Neighbor) (he : e.dist = Score.nan) :
    cmp e x = .gt := by
  unfold cmp
  rw [he, Score.flt_nan_right, Score.feq_nan_right]
  rfl

/-! ### Specification of the binary search loop -/

theorem bsLoop_zero (xs : List Neighbor) (f : Neighbor → Ordering)
    (left right : ℕ) : bsLoop xs f 0 left right = .err left := rfl

theorem bsLoop_succ_of_not_lt (xs : List Neighbor) (f : Neighbor → Ordering)
    (fuel : ℕ) {left right : ℕ} (h : ¬ left < right) :
    bsLoop xs f (fuel + 1) left right = .err left := by
  simp [bsLoop, h]

theorem bsLoop_succ_of_lt (xs : List Neighbor) (f : Neighbor → Ordering)
    (fuel : ℕ) {left right : ℕ} (h : left < right) :
    bsLoop xs f (fuel + 1) left right =
      match f (xs.getD (left + (right - left) / 2) default) with
      | .lt => bsLoop xs f fuel (left + (right - left) / 2 + 1) right
      | .eq => .ok (left + (right - left) / 2)
      | .gt => bsLoop xs f fuel left (left + (right - left) / 2) := by
  simp [bsLoop, h]

/-- The loop invariant of Rust's `binary_search_by`: everything left of
the window compares `Less`, everything right of it compares `Greater`,
provided the comparison behaves monotonically along the slice.  On `Ok`
an index comparing `Equal` is returned; on `Err` the reported position
splits the slice into a `Less` prefix and a `Greater` suffix. -/
theorem bsLoop_spec {xs : List Neighbor} {f : Neighbor → Ordering}
    (hmono : ∀ i j, i ≤ j → j < xs.length →
      (f (xs.getD j default) = .lt → f (xs.getD i default) = .lt) ∧
      (f (xs.getD i default) = .gt → f (xs.getD j default) = .gt)) :
    ∀ (fuel left right : ℕ), left ≤ right → right ≤ xs.length →
      right - left ≤ fuel →
      (∀ i, i < left → f (xs.getD i default) = .lt) →
      (∀ i, right ≤ i → i < xs.length → f (xs.getD i default) = .gt) →
      (∀ m, bsLoop xs f fuel left right = .ok m →
        m < xs.length ∧ f (xs.getD m default) = .eq) ∧
      (∀ p, bsLoop xs f fuel left right = .err p →
        p ≤ xs.length ∧ (∀ i, i < p → f (xs.getD i default) = .lt) ∧
        (∀ i, p ≤ i → i < xs.length → f (xs.getD i default) = .gt)) := by
  intro fuel
  induction fuel with
  | zero =>
    intro left right hlr hrlen hfuel hlo hhi
    have heq : left = right := by omega
    refine ⟨fun m hm => ?_, fun p hp => ?_⟩
    · rw [bsLoop_zero] at hm
      cases hm
    · rw [bsLoop_zero] at hp
      cases hp
      exact ⟨le_trans hlr hrlen, hlo, fun i hge hlen => hhi i (by omega) hlen⟩
  | succ fuel ih =>
    intro left right hlr hrlen hfuel hlo hhi
    by_cases hlt : left < right
    · rw [bsLoop_succ_of_lt xs f fuel hlt]
      have hmidlt : left + (right - left) / 2 < right := by omega
      have hmidlen : left + (right - left) / 2 < xs.length :=
        lt_of_lt_of_le hmidlt hrlen
      cases hfm : f (xs.getD (left + (right - left) / 2) default) with
      | lt =>
        refine ih (left + (right - left) / 2 + 1) right (by omega) hrlen
          (by omega) ?_ hhi
        intro i hi
        rcases lt_or_ge i left with hil | hil
        · exact hlo i hil
        · exact (hmono i (left + (right - left) / 2) (by omega) hmidlen).1 hfm
      | eq =>
        refine ⟨fun m hm => ?_, fun p hp => ?_⟩
        · cases hm
          exact ⟨hmidlen, hfm⟩
        · cases hp
      | gt =>
        refine ih left (left + (right - left) / 2) (by omega)
          (le_of_lt hmidlen) (by omega) hlo ?_
        intro i hge hlen
        exact (hmono (left + (right - left) / 2) i hge hlen).2 hfm
    · rw [bsLoop_succ_of_not_lt xs f fuel hlt]
      refine ⟨fun m hm => ?_, fun p hp => ?_⟩
      · cases hm
      · cases hp
        exact ⟨le_trans hlr hrlen, hlo, fun i hge hlen => hhi i (by omega) hlen⟩

theorem binary_search_by_spec {xs : List Neighbor} {f : Neighbor → Ordering}
    (hmono : ∀ i j, i ≤ j → j < xs.length →
      (f (xs.getD j default) = .lt → f (xs.getD i default) = .lt) ∧
      (f (xs.getD i default) = .gt → f (xs.getD j default) = .gt)) :
    (∀ m, binary_search_by xs f = .ok m →
      m < xs.length ∧ f (xs.getD m default) = .eq) ∧
    (∀ p, binary_search_by xs f = .err p → p ≤ xs.length ∧
      (∀ i, i < p → f (xs.getD i default) = .lt) ∧
      (∀ i, p ≤ i → i < xs.length → f (xs.getD i default) = .gt)) :=
  bsLoop_spec hmono xs.length 0 xs.length (Nat.zero_le _) le_rfl (by omega)
    (fun i hi => absurd hi (Nat.not_lt_zero i))
    (fun _ hge hlen => absurd hlen (not_lt.mpr hge))

/-! ### Binary search over a sorted, comparable slice -/

theorem cmp_mono_of_sorted {xs : List Neighbor} {e : Neighbor}
    (hs : xs.Pairwise pairLt) (hn : noNaNs xs) (he : e.dist ≠ Score.nan) :
    ∀ i j, i ≤ j → j < xs.length →
      (cmp e (xs.getD j default) = .lt → cmp e (xs.getD i default) = .lt) ∧
      (cmp e (xs.getD i default) = .gt → cmp e (xs.getD j default) = .gt) := by
  intro i j hij hj
  have hi : i < xs.length := Nat.lt_of_le_of_lt hij hj
  rw [List.getD_eq_getElem xs default hi, List.getD_eq_getElem xs default hj]
  have hni : xs[i].dist ≠ Score.nan := hn _ (List.getElem_mem hi)
  have hnj : xs[j].dist ≠ Score.nan := hn _ (List.getElem_mem hj)
  rcases Nat.eq_or_lt_of_le hij with rfl | hlt
  · exact ⟨id, id⟩
  · have hR : pairLt xs[i] xs[j] :=
      List.pairwise_iff_getElem.mp hs i j hi hj hlt
    constructor
    · intro h
      rw [cmp_eq_lt_iff he hnj] at h
      rw [cmp_eq_lt_iff he hni]
      exact pairLt_trans hR h
    · intro h
      rw [cmp_eq_gt_iff he hni] at h
      rw [cmp_eq_gt_iff he hnj]
      exact pairLt_trans h hR

theorem binary_search_sorted_ok {xs : List Neighbor} {e : Neighbor} {m : ℕ}
    (hs : xs.Pairwise pairLt) (hn : noNaNs xs) (he : e.dist ≠ Score.nan)
    (hbs : binary_search_by xs (cmp e) = .ok m) :
    m < xs.length ∧ xs.getD m default = e := by
  obtain ⟨hm, hfm⟩ := (binary_search_by_spec (cmp_mono_of_sorted hs hn he)).1 m hbs
  refine ⟨hm, ?_⟩
  have hx : (xs.getD m default).dist ≠ Score.nan := by
    rw [List.getD_eq_getElem xs default hm]
    exact hn _ (List.getElem_mem hm)
  rwa [cmp_eq_eq_iff he hx] at hfm

theorem binary_search_sorted_err {xs : List Neighbor} {e : Neighbor} {p : ℕ}
    (hs : xs.Pairwise pairLt) (hn : noNaNs xs) (he : e.dist ≠ Score.nan)
    (hbs : binary_search_by xs (cmp e) = .err p) :
    p ≤ xs.length ∧ (∀ i, i < p → pairLt (xs.getD i default) e) ∧
      (∀ i, p ≤ i → i < xs.length → pairLt e (xs.getD i default)) := by
  obtain ⟨hp, hlo, hhi⟩ :=
    (binary_search_by_spec (cmp_mono_of_sorted hs hn he)).2 p hbs
  refine ⟨hp, fun i hi => ?_, fun i hge hlen => ?_⟩
  · have hilen : i < xs.length := lt_of_lt_of_le hi hp
    have hx : (xs.getD i default).dist ≠ Score.nan := by
      rw [List.getD_eq_getElem xs default hilen]
      exact hn _ (List.getElem_mem hilen)
    have := hlo i hi
    rwa [cmp_eq_lt_iff he hx] at this
  · have hx : (xs.getD i default).dist ≠ Score.nan := by
      rw [List.getD_eq_getElem xs default hlen]
      exact hn _ (List.getElem_mem hlen)
    have := hhi i hge hlen
    rwa [cmp_eq_gt_iff he hx] at this

theorem binary_search_of_mem {xs : List Neighbor} {e : Neighbor}
    (hs : xs.Pairwise pairLt) (hn : noNaNs xs) (hmem : e ∈ xs) :
    ∃ m, binary_search_by xs (cmp e) = .ok m := by
  have he := hn e hmem
  cases hbs : binary_search_by xs (cmp e) with
  | ok m => exact ⟨m, rfl⟩
  | err p =>
    exfalso
    obtain ⟨hp, hlo, hhi⟩ := binary_search_sorted_err hs hn he hbs
    obtain ⟨k, hk, hke⟩ := List.mem_iff_getElem.mp hmem
    rcases lt_or_ge k p with h | h
    · have := hlo k h
      rw [List.getD_eq_getElem xs default hk, hke] at this
      exact pairLt_irrefl e this
    · have := hhi k h hk
      rw [List.getD_eq_getElem xs default hk, hke] at this
      exact pairLt_irrefl e this

/-! ### Sorted insertion and the behaviour of `Queue.insert` -/

theorem pairwise_insertIdx {l : List Neighbor} {p : ℕ} {a : Neighbor}
    (hp : p ≤ l.length) (hl : l.Pairwise pairLt)
    (hbef : ∀ i, i < p → pairLt (l.getD i default) a)
    (haft : ∀ i, p ≤ i → i < l.length → pairLt a (l.getD i default)) :
    (l.insertIdx p a).Pairwise pairLt := by
  induction l generalizing p with
  | nil =>
    have : p = 0 := by simpa using hp
    subst this
    simp
  | cons x t ih =>
    cases p with
    | zero =>
      rw [List.insertIdx_zero]
      refine List.pairwise_cons.mpr ⟨?_, hl⟩
      intro y hy
      obtain ⟨k, hk, hky⟩ := List.mem_iff_getElem.mp hy
      have := haft k (Nat.zero_le k) hk
      rw [List.getD_eq_getElem _ default hk, hky] at this
      exact this
    | succ n =>
      rw [List.insertIdx_succ_cons]
      have hp' : n ≤ t.length := by simpa using hp
      refine List.pairwise_cons.mpr ⟨?_, ?_⟩
      · intro y hy
        rcases (List.mem_insertIdx hp').mp hy with rfl | hyt
        · have := hbef 0 (Nat.succ_pos n)
          simpa using this
        · exact (List.pairwise_cons.mp hl).1 y hyt
      · refine ih hp' (List.pairwise_cons.mp hl).2 ?_ ?_
        · intro i hi
          have := hbef (i + 1) (by omega)
          simpa using this
        · intro i hge hlen
          have := haft (i + 1) (by omega) (by simpa using hlen)
          simpa using this

theorem insert_capacity (q : Queue) (e : Neighbor) :
    (q.insert e).capacity = q.capacity := by
  unfold Queue.insert
  cases binary_search_by q.neighbors (cmp e) with
  | ok m => rfl
  | err p =>
    dsimp only
    split
    · rfl
    · rfl

theorem insert_noop_of_found {q : Queue} {e : Neighbor} {m : ℕ}
    (hbs : binary_search_by q.neighbors (cmp e) = .ok m) : q.insert e = q := by
  simp [Queue.insert, hbs]

theorem insert_noop_of_err_ge {q : Queue} {e : Neighbor} {p : ℕ}
    (hbs : binary_search_by q.neighbors (cmp e) = .err p)
    (hcap : ¬ p < q.capacity) : q.insert e = q := by
  simp [Queue.insert, hbs, hcap]

theorem insert_at_pos {q : Queue} {e : Neighbor} {p : ℕ}
    (hbs : binary_search_by q.neighbors (cmp e) = .err p)
    (hcap : p < q.capacity) :
    (q.insert e).neighbors =
      (if q.neighbors.length = q.capacity then q.neighbors.dropLast
       else q.neighbors).insertIdx p e := by
  simp [Queue.insert, hbs, hcap]

theorem insert_of_mem {q : Queue} {e : Neighbor}
    (hs : q.neighbors.Pairwise pairLt) (hn : noNaNs q.neighbors)
    (hmem : e ∈ q.neighbors) : q.insert e = q := by
  obtain ⟨m, hm⟩ := binary_search_of_mem hs hn hmem
  exact insert_noop_of_found hm

/-- `insert` preserves the queue invariant for comparable entries. -/
theorem insert_Inv {q : Queue} {e : Neighbor} (hq : Inv q)
    (he : e.dist ≠ Score.nan) : Inv (q.insert e) := by
  obtain ⟨hlen, hs, hn⟩ := hq
  cases hbs : binary_search_by q.neighbors (cmp e) with
  | ok m =>
    rw [insert_noop_of_found hbs]
    exact ⟨hlen, hs, hn⟩
  | err p =>
    by_cases hcap : p < q.capacity
    · obtain ⟨hple, hbef, haft⟩ := binary_search_sorted_err hs hn he hbs
      have hres := insert_at_pos hbs hcap
      have hcapeq := insert_capacity q e
      by_cases hfull : q.neighbors.length = q.capacity
      · rw [if_pos hfull] at hres
        have hdl : q.neighbors.dropLast.length = q.neighbors.length - 1 :=
          List.length_dropLast _
        have hpk : p ≤ q.neighbors.dropLast.length := by omega
        have hsk : q.neighbors.dropLast.Pairwise pairLt :=
          List.Pairwise.sublist (List.dropLast_sublist _) hs
        have hbefk : ∀ i, i < p →
            pairLt (q.neighbors.dropLast.getD i default) e := by
          intro i hi
          have hik : i < q.neighbors.dropLast.length := by omega
          have hil : i < q.neighbors.length := by omega
          rw [List.getD_eq_getElem _ default hik, List.getElem_dropLast]
          have := hbef i hi
          rwa [List.getD_eq_getElem _ default hil] at this
        have haftk : ∀ i, p ≤ i → i < q.neighbors.dropLast.length →
            pairLt e (q.neighbors.dropLast.getD i default) := by
          intro i hge hik
          have hil : i < q.neighbors.length := by omega
          rw [List.getD_eq_getElem _ default hik, List.getElem_dropLast]
          have := haft i hge hil
          rwa [List.getD_eq_getElem _ default hil] at this
        refine ⟨?_, ?_, ?_⟩
        · rw [hres, hcapeq, List.length_insertIdx _ _ hpk]
          omega
        · rw [hres]
          exact pairwise_insertIdx hpk hsk hbefk haftk
        · rw [hres]
          intro x hx
          rcases (List.mem_insertIdx hpk).mp hx with rfl | hxk
          · exact he
          · exact hn x ((List.dropLast_sublist _).subset hxk)
      · rw [if_neg hfull] at hres
        refine ⟨?_, ?_, ?_⟩
        · rw [hres, hcapeq, List.length_insertIdx _ _ hple]
          omega
        · rw [hres]
          exact pairwise_insertIdx hple hs hbef haft
        · rw [hres]
          intro x hx
          rcases (List.mem_insertIdx hple).mp hx with rfl | hxk
          · exact he
          · exact hn x hxk
    · rw [insert_noop_of_err_ge hbs hcap]
      exact ⟨hlen, hs, hn⟩

theorem Inv_with_capacity (c : ℕ) : Inv (Queue.with_capacity c) :=
  ⟨Nat.zero_le c, List.Pairwise.nil, fun _ hx => absurd hx (List.not_mem_nil _)⟩

theorem Inv_clear {q : Queue} : Inv q.clear :=
  ⟨Nat.zero_le _, List.Pairwise.nil, fun _ hx => absurd hx (List.not_mem_nil _)⟩

theorem step_Inv {q : Queue} {op : Op} (hq : Inv q) (hop : op.comparable) :
    Inv (q.step op) := by
  cases op with
  | ins n => exact insert_Inv hq hop
  | clr => exact Inv_clear

theorem run_Inv {q : Queue} {ops : List Op} (hq : Inv q)
    (hops : ∀ op ∈ ops, op.comparable) : Inv (q.run ops) := by
  induction ops generalizing q with
  | nil => exact hq
  | cons op rest ih =>
    exact ih (step_Inv hq (hops op (List.mem_cons_self op rest)))
      (fun o ho => hops o (List.mem_cons_of_mem op ho))

theorem step_capacity (q : Queue) (op : Op) :
    (q.step op).capacity = q.capacity := by
  cases op with
  | ins n => exact insert_capacity q n
  | clr => rfl

theorem run_capacity (q : Queue) (ops : List Op) :
    (q.run ops).capacity = q.capacity := by
  induction ops generalizing q with
  | nil => rfl
  | cons op rest ih => exact (ih (q.step op)).trans (step_capacity q op)

/-- C6: `clear` resets the sequence to empty, keeps the capacity, and the
cleared queue is equal to a freshly constructed queue of the same
capacity, so every subsequent operation sequence behaves identically. -/
theorem C6_clear_resets (q : Queue) :
    q.clear = Queue.with_capacity q.capacity ∧
    q.clear.as_slice.length = 0 ∧
    q.clear.capacity = q.capacity ∧
    ∀ ops : List Op, (q.clear.run ops).as_slice
      = ((Queue.with_capacity q.capacity).run ops).as_slice :=
  ⟨rfl, rfl, rfl, fun _ => rfl⟩

/-- C6 witness: instantiation at a concrete nonempty queue, with the
subsequent-insertion conjunct applied to a concrete operation list. -/
theorem C6_clear_resets_witness :
    ((Queue.with_capacity 2).run [Op.ins ⟨1, .val 1⟩]).clear
        = Queue.with_capacity 2 ∧
    ((Queue.with_capacity 2).run [Op.ins ⟨1, .val 1⟩]).clear.as_slice.length
        = 0 ∧
    ((Queue.with_capacity 2).run [Op.ins ⟨1, .val 1⟩]).clear.capacity = 2 ∧
    (((Queue.with_capacity 2).run [Op.ins ⟨1, .val 1⟩]).clear.run
        [Op.ins ⟨2, .val 2⟩]).as_slice
      = ((Queue.with_capacity 2).run [Op.ins ⟨2, .val 2⟩]).as_slice :=
  ⟨(C6_clear_resets _).1, (C6_clear_resets _).2.1, (C6_clear_resets _).2.2.1,
    (C6_clear_resets _).2.2.2 [Op.ins ⟨2, .val 2⟩]⟩

/-- C7: the three concrete scenarios of the spec on a fresh queue of
capacity 3: inserting scores 0.5, 0.2, 0.8 sorts them ascending; then
inserting 0.1 evicts the 0.8 entry; then inserting 0.9 is a no-op. -/
theorem C7_concrete_scenarios :
    (((Queue.with_capacity 3).run
        [Op.ins ⟨1, .val 0.5⟩, Op.ins ⟨2, .val 0.2⟩, Op.ins ⟨3, .val 0.8⟩]).as_slice
        = [⟨2, .val 0.2⟩, ⟨1, .val 0.5⟩, ⟨3, .val 0.8⟩]) ∧
    (((Queue.with_capacity 3).run
        [Op.ins ⟨1, .val 0.5⟩, Op.ins ⟨2, .val 0.2⟩, Op.ins ⟨3, .val 0.8⟩,
         Op.ins ⟨4, .val 0.1⟩]).as_slice
        = [⟨4, .val 0.1⟩, ⟨2, .val 0.2⟩, ⟨1, .val 0.5⟩]) ∧
    (((Queue.with_capacity 3).run
        [Op.ins ⟨1, .val 0.5⟩, Op.ins ⟨2, .val 0.2⟩, Op.ins ⟨3, .val 0.8⟩,
         Op.ins ⟨4, .val 0.1⟩, Op.ins ⟨5, .val 0.9⟩]).as_slice
        = [⟨4, .val 0.1⟩, ⟨2, .val 0.2⟩, ⟨1, .val 0.5⟩]) := by
  rw [show (0.5:ℚ) = mkRat 1 2 by rw [Rat.mkRat_eq_div]; norm_num,
      show (0.2:ℚ) = mkRat 1 5 by rw [Rat.mkRat_eq_div]; norm_num,
      show (0.8:ℚ) = mkRat 4 5 by rw [Rat.mkRat_eq_div]; norm_num,
      show (0.1:ℚ) = mkRat 1 10 by rw [Rat.mkRat_eq_div]; norm_num,
      show (0.9:ℚ) = mkRat 9 10 by rw [Rat.mkRat_eq_div]; norm_num]
  decide

/-- C8: `NonZeroUsize::new` refuses a zero capacity, and for every
capacity at least 1 construction yields it back and `with_capacity`
returns an empty queue holding exactly that capacity. -/
theorem C8_construction (c : ℕ) (hc : 1 ≤ c) :
    nonZeroUsizeNew 0 = none ∧
    nonZeroUsizeNew c = some c ∧
    (Queue.with_capacity c).as_slice = [] ∧
    (Queue.with_capacity c).capacity = c := by
  refine ⟨rfl, ?_, rfl, rfl⟩
  unfold nonZeroUsizeNew
  rw [if_neg (by omega)]

/-- C8 witness: instantiation at capacity 3. -/
theorem C8_construction_witness :
    nonZeroUsizeNew 0 = none ∧
    nonZeroUsizeNew 3 = some 3 ∧
    (Queue.with_capacity 3).as_slice = [] ∧
    (Queue.with_capacity 3).capacity = 3 :=
  C8_construction 3 (by decide)

/-- C1 counterexample: with capacity 2 and the pair `(id 3, score 1)`
already held (insertion position of the duplicate is below capacity),
inserting the same pair again leaves the queue unchanged — the length
does not grow by one, contrary to the claim that the duplicate is
admitted. -/
theorem C1_counterexample :
    ((Queue.with_capacity 2).run [Op.ins ⟨3, .val 1⟩]).as_slice
        = [⟨3, Score.val 1⟩] ∧
    ((Queue.with_capacity 2).run [Op.ins ⟨3, .val 1⟩]).insert ⟨3, .val 1⟩
        = (Queue.with_capacity 2).run [Op.ins ⟨3, .val 1⟩] ∧
    ¬ ((((Queue.with_capacity 2).run [Op.ins ⟨3, .val 1⟩]).insert
          ⟨3, .val 1⟩).as_slice.length
        = ((Queue.with_capacity 2).run [Op.ins ⟨3, .val 1⟩]).as_slice.length
            + 1) := by
  decide

/-- C9 counterexample: the pair `(id 1, NaN)` is already held, yet
inserting the very same pair again is admitted (the comparator answers
`Greater` against a NaN score, so the search never reports "found"),
producing a reachable state with two identical entries. -/
theorem C9_counterexample :
    (⟨1, Score.nan⟩ : Neighbor)
        ∈ ((Queue.with_capacity 2).run [Op.ins ⟨1, .nan⟩]).as_slice ∧
    (((Queue.with_capacity 2).run [Op.ins ⟨1, .nan⟩]).insert
        ⟨1, .nan⟩).as_slice = [⟨1, Score.nan⟩, ⟨1, Score.nan⟩] ∧
    ¬ (((Queue.with_capacity 2).run [Op.ins ⟨1, .nan⟩]).insert
        ⟨1, .nan⟩).as_slice.Nodup := by
  decide

theorem pairwise_insertIdx_dropLast {xs : List Neighbor} {e : Neighbor}
    {p : ℕ} (hs : xs.Pairwise pairLt)
    (hbef : ∀ i, i < p → pairLt (xs.getD i default) e)
    (haft : ∀ i, p ≤ i → i < xs.length → pairLt e (xs.getD i default))
    (hpk : p ≤ xs.dropLast.length) :
    (xs.dropLast.insertIdx p e).Pairwise pairLt := by
  have hdl : xs.dropLast.length = xs.length - 1 := List.length_dropLast _
  have hsk : xs.dropLast.Pairwise pairLt :=
    List.Pairwise.sublist (List.dropLast_sublist _) hs
  refine pairwise_insertIdx hpk hsk ?_ ?_
  · intro i hi
    have hik : i < xs.dropLast.length := by omega
    have hil : i < xs.length := by omega
    rw [List.getD_eq_getElem _ default hik, List.getElem_dropLast]
    have := hbef i hi
    rwa [List.getD_eq_getElem _ default hil] at this
  · intro i hge hik
    have hil : i < xs.length := by omega
    rw [List.getD_eq_getElem _ default hik, List.getElem_dropLast]
    have := haft i hge hil
    rwa [List.getD_eq_getElem _ default hil] at this

theorem bsLoop_all_gt {xs : List Neighbor} {f : Neighbor → Ordering}
    (h : ∀ x ∈ xs, f x = .gt) :
    ∀ (fuel right : ℕ), right ≤ xs.length → bsLoop xs f fuel 0 right = .err 0 := by
  intro fuel
  induction fuel with
  | zero => intro right _; rfl
  | succ fuel ih =>
    intro right hr
    by_cases h0 : 0 < right
    · rw [bsLoop_succ_of_lt xs f fuel h0]
      have hmid : 0 + (right - 0) / 2 < xs.length := by omega
      have hfm : f (xs.getD (0 + (right - 0) / 2) default) = .gt := by
        rw [List.getD_eq_getElem _ default hmid]
        exact h _ (List.getElem_mem hmid)
      rw [hfm]
      exact ih _ (by omega)
    · exact bsLoop_succ_of_not_lt xs f fuel h0

/-- C2: starting from a fresh queue of positive capacity, after every
sequence of insert/clear operations whose inserted scores are all
comparable, the held sequence has length at most the capacity and is
sorted strictly ascending by `(score, identifier)` lexicographically
(score primary, identifier as ascending tie-break). -/
theorem C2_invariants (c : ℕ) (hc : 0 < c) (ops : List Op)
    (hops : ∀ op ∈ ops, op.comparable) :
    ((Queue.with_capacity c).run ops).as_slice.length ≤ c ∧
    ((Queue.with_capacity c).run ops).as_slice.Pairwise pairLt := by
  obtain ⟨h1, h2, -⟩ := run_Inv (Inv_with_capacity c) hops
  rw [run_capacity] at h1
  exact ⟨h1, h2⟩

/-- C2 witness: a concrete run mixing insertions, an eviction, a clear
and a further insertion, at capacity 2. -/
theorem C2_invariants_witness :
    ((Queue.with_capacity 2).run
      [Op.ins ⟨1, .val 3⟩, Op.ins ⟨2, .val 1⟩, Op.ins ⟨3, .val 2⟩, Op.clr,
       Op.ins ⟨4, .val 5⟩]).as_slice.length ≤ 2 ∧
    ((Queue.with_capacity 2).run
      [Op.ins ⟨1, .val 3⟩, Op.ins ⟨2, .val 1⟩, Op.ins ⟨3, .val 2⟩, Op.clr,
       Op.ins ⟨4, .val 5⟩]).as_slice.Pairwise pairLt :=
  C2_invariants 2 (by decide) _ (by decide)

/-- C9 (amended: restricted to comparable scores): every state reachable
by comparable insertions and clears holds pairwise distinct
`(score, identifier)` pairs, and inserting an entry whose exact pair is
already present leaves the queue unchanged. -/
theorem C9_nodup_of_comparable (c : ℕ) (hc : 0 < c) (ops : List Op)
    (hops : ∀ op ∈ ops, op.comparable) :
    ((Queue.with_capacity c).run ops).as_slice.Nodup ∧
    ∀ e ∈ ((Queue.with_capacity c).run ops).as_slice,
      ((Queue.with_capacity c).run ops).insert e
        = (Queue.with_capacity c).run ops := by
  obtain ⟨-, h2, h3⟩ := run_Inv (Inv_with_capacity c) hops
  refine ⟨List.Pairwise.imp (fun h => pairLt_ne h) h2, fun e he => ?_⟩
  exact insert_of_mem h2 h3 he

/-- C9 witness: instantiation at capacity 2 with two comparable
insertions. -/
theorem C9_nodup_of_comparable_witness :
    ((Queue.with_capacity 2).run
      [Op.ins ⟨3, .val 1⟩, Op.ins ⟨5, .val 2⟩]).as_slice.Nodup ∧
    ∀ e ∈ ((Queue.with_capacity 2).run
      [Op.ins ⟨3, .val 1⟩, Op.ins ⟨5, .val 2⟩]).as_slice,
      ((Queue.with_capacity 2).run
        [Op.ins ⟨3, .val 1⟩, Op.ins ⟨5, .val 2⟩]).insert e
        = (Queue.with_capacity 2).run [Op.ins ⟨3, .val 1⟩, Op.ins ⟨5, .val 2⟩] :=
  C9_nodup_of_comparable 2 (by decide) _ (by decide)

/-- C1 (amended): on a sorted queue of comparable scores, inserting an
entry whose exact `(score, identifier)` pair is already present is
treated as "found" and is a complete no-op — nothing is inserted and the
length does not grow. -/
theorem C1_duplicate_is_noop {q : Queue} {e : Neighbor}
    (hs : q.as_slice.Pairwise pairLt) (hn : noNaNs q.as_slice)
    (hmem : e ∈ q.as_slice) :
    q.insert e = q ∧ (q.insert e).as_slice.length = q.as_slice.length := by
  have h := insert_of_mem hs hn hmem
  exact ⟨h, by rw [h]⟩

/-- C1 amended witness: the duplicate insertion of the counterexample
state is a no-op. -/
theorem C1_duplicate_is_noop_witness :
    ((Queue.with_capacity 2).run [Op.ins ⟨3, .val 1⟩]).insert ⟨3, .val 1⟩
        = (Queue.with_capacity 2).run [Op.ins ⟨3, .val 1⟩] ∧
    (((Queue.with_capacity 2).run [Op.ins ⟨3, .val 1⟩]).insert
        ⟨3, .val 1⟩).as_slice.length
        = ((Queue.with_capacity 2).run [Op.ins ⟨3, .val 1⟩]).as_slice.length :=
  C1_duplicate_is_noop (by decide) (by decide) (by decide)

/-- C3: on a full sorted queue of comparable scores, inserting a
comparable entry whose `(score, identifier)` pair is greater than every
held entry's pair is a complete no-op. -/
theorem C3_saturating_admission {q : Queue} {e : Neighbor}
    (hs : q.as_slice.Pairwise pairLt) (hn : noNaNs q.as_slice)
    (he : e.dist ≠ Score.nan)
    (hfull : q.as_slice.length = q.capacity)
    (hworse : ∀ x ∈ q.as_slice, pairLt x e) :
    q.insert e = q := by
  have hfull' : q.neighbors.length = q.capacity := hfull
  have hs' : q.neighbors.Pairwise pairLt := hs
  have hn' : noNaNs q.neighbors := hn
  cases hbs : binary_search_by q.neighbors (cmp e) with
  | ok m => exact insert_noop_of_found hbs
  | err p =>
    obtain ⟨hple, hbef, haft⟩ := binary_search_sorted_err hs' hn' he hbs
    have hp : p = q.neighbors.length := by
      by_contra hne
      have hplt : p < q.neighbors.length := lt_of_le_of_ne hple hne
      have hmem : q.neighbors.getD p default ∈ q.neighbors := by
        rw [List.getD_eq_getElem _ default hplt]
        exact List.getElem_mem hplt
      exact pairLt_asymm (haft p le_rfl hplt) (hworse _ hmem)
    exact insert_noop_of_err_ge hbs (by omega)

/-- C3 witness: a full capacity-2 queue ignores a strictly worse entry. -/
theorem C3_saturating_admission_witness :
    ((Queue.with_capacity 2).run
      [Op.ins ⟨1, .val 1⟩, Op.ins ⟨2, .val 2⟩]).insert ⟨9, .val 9⟩
      = (Queue.with_capacity 2).run [Op.ins ⟨1, .val 1⟩, Op.ins ⟨2, .val 2⟩] :=
  C3_saturating_admission (by decide) (by decide) (by decide) (by decide)
    (by decide)

/-- C4: when the queue is full, sorted with comparable scores, and an
admitted entry (one whose exact pair is not yet present) is strictly
better than the current worst (last) entry, the worst entry is evicted,
the new entry appears, the result is still sorted, and the length still
equals the capacity. -/
theorem C4_eviction {q : Queue} {e w : Neighbor}
    (hs : q.as_slice.Pairwise pairLt) (hn : noNaNs q.as_slice)
    (he : e.dist ≠ Score.nan)
    (hfull : q.as_slice.length = q.capacity)
    (hw : q.as_slice.getLast? = some w)
    (hbetter : pairLt e w) (hnm : e ∉ q.as_slice) :
    (q.insert e).as_slice.length = q.capacity ∧
    e ∈ (q.insert e).as_slice ∧
    w ∉ (q.insert e).as_slice ∧
    (q.insert e).as_slice.Pairwise pairLt := by
  have hs' : q.neighbors.Pairwise pairLt := hs
  have hn' : noNaNs q.neighbors := hn
  have hfull' : q.neighbors.length = q.capacity := hfull
  have hw' : q.neighbors.getLast? = some w := hw
  have hnm' : e ∉ q.neighbors := hnm
  obtain ⟨ys, hys⟩ := List.getLast?_eq_some_iff.mp hw'
  have hlen1 : 1 ≤ q.neighbors.length := by rw [hys]; simp
  have hne : q.neighbors ≠ [] := by
    intro h0
    rw [h0] at hw'
    cases hw'
  have hwlast : q.neighbors.getD (q.neighbors.length - 1) default = w := by
    rw [List.getD_eq_getElem _ default (by omega),
      ← List.getLast_eq_getElem _ hne]
    exact (List.getLast_eq_iff_getLast?_eq_some hne).mpr hw'
  cases hbs : binary_search_by q.neighbors (cmp e) with
  | ok m =>
    obtain ⟨hm, hme⟩ := binary_search_sorted_ok hs' hn' he hbs
    exfalso
    apply hnm'
    rw [← hme, List.getD_eq_getElem _ default hm]
    exact List.getElem_mem hm
  | err p =>
    obtain ⟨hple, hbef, haft⟩ := binary_search_sorted_err hs' hn' he hbs
    have hplt : p < q.neighbors.length := by
      by_contra hnp
      have hpe : p = q.neighbors.length := by omega
      have hlast := hbef (q.neighbors.length - 1) (by omega)
      rw [hwlast] at hlast
      exact pairLt_asymm hbetter hlast
    have hcap : p < q.capacity := by omega
    have hres := insert_at_pos hbs hcap
    rw [if_pos hfull'] at hres
    have hdl : q.neighbors.dropLast.length = q.neighbors.length - 1 :=
      List.length_dropLast _
    have hpk : p ≤ q.neighbors.dropLast.length := by omega
    refine ⟨?_, ?_, ?_, ?_⟩
    · show (q.insert e).neighbors.length = q.capacity
      rw [hres, List.length_insertIdx _ _ hpk]
      omega
    · show e ∈ (q.insert e).neighbors
      rw [hres]
      exact (List.mem_insertIdx hpk).mpr (Or.inl rfl)
    · show w ∉ (q.insert e).neighbors
      rw [hres]
      intro hwmem
      rcases (List.mem_insertIdx hpk).mp hwmem with heq | hwdl
      · exact pairLt_ne hbetter heq.symm
      · have hys' : q.neighbors.dropLast = ys := by rw [hys]; simp
        rw [hys'] at hwdl
        have hpw : ∀ x ∈ ys, pairLt x w := by
          have hsa : (ys ++ [w]).Pairwise pairLt := by rw [← hys]; exact hs'
          intro x hx
          exact (List.pairwise_append.mp hsa).2.2 x hx w
            (List.mem_singleton.mpr rfl)
        exact pairLt_irrefl w (hpw w hwdl)
    · show (q.insert e).neighbors.Pairwise pairLt
      rw [hres]
      exact pairwise_insertIdx_dropLast hs' hbef haft hpk

/-- C4 witness: a full capacity-2 queue holding scores 1 and 3 evicts
the worst entry to admit score 2. -/
theorem C4_eviction_witness :
    (((Queue.with_capacity 2).run
        [Op.ins ⟨1, .val 1⟩, Op.ins ⟨2, .val 3⟩]).insert
        ⟨5, .val 2⟩).as_slice.length
      = ((Queue.with_capacity 2).run
          [Op.ins ⟨1, .val 1⟩, Op.ins ⟨2, .val 3⟩]).capacity ∧
    (⟨5, Score.val 2⟩ : Neighbor)
      ∈ (((Queue.with_capacity 2).run
          [Op.ins ⟨1, .val 1⟩, Op.ins ⟨2, .val 3⟩]).insert
          ⟨5, .val 2⟩).as_slice ∧
    (⟨2, Score.val 3⟩ : Neighbor)
      ∉ (((Queue.with_capacity 2).run
          [Op.ins ⟨1, .val 1⟩, Op.ins ⟨2, .val 3⟩]).insert
          ⟨5, .val 2⟩).as_slice ∧
    (((Queue.with_capacity 2).run
        [Op.ins ⟨1, .val 1⟩, Op.ins ⟨2, .val 3⟩]).insert
        ⟨5, .val 2⟩).as_slice.Pairwise pairLt :=
  C4_eviction (by decide) (by decide) (by decide) (by decide) (by decide)
    (by decide) (by decide)

/-- C10: inserting a NaN-scored entry into any queue of positive
capacity whose held scores are all comparable always admits the entry at
position 0 (every probe compares `Greater` against NaN), evicting the
current worst entry when the queue is full. -/
theorem C10_nan_admitted_at_front {q : Queue} {e : Neighbor}
    (hc : 0 < q.capacity) (hn : noNaNs q.as_slice)
    (he : e.dist = Score.nan) :
    (q.insert e).as_slice =
      e :: (if q.as_slice.length = q.capacity then q.as_slice.dropLast
            else q.as_slice) := by
  simp only [Queue.as_slice]
  have hbs : binary_search_by q.neighbors (cmp e) = .err 0 :=
    bsLoop_all_gt (fun x _ => cmp_nan_eq_gt x he) q.neighbors.length
      q.neighbors.length le_rfl
  have hres := insert_at_pos hbs hc
  rw [hres]
  by_cases hfull : q.neighbors.length = q.capacity
  · rw [if_pos hfull, List.insertIdx_zero]
  · rw [if_neg hfull, List.insertIdx_zero]

/-- C10 witness: a full capacity-2 queue with comparable scores admits a
NaN entry at the front and evicts the worst entry. -/
theorem C10_nan_admitted_at_front_witness :
    (((Queue.with_capacity 2).run
        [Op.ins ⟨1, .val 1⟩, Op.ins ⟨2, .val 2⟩]).insert ⟨9, .nan⟩).as_slice
      = ⟨9, Score.nan⟩ ::
        (if ((Queue.with_capacity 2).run
              [Op.ins ⟨1, .val 1⟩, Op.ins ⟨2, .val 2⟩]).as_slice.length
            = ((Queue.with_capacity 2).run
                [Op.ins ⟨1, .val 1⟩, Op.ins ⟨2, .val 2⟩]).capacity
         then ((Queue.with_capacity 2).run
                [Op.ins ⟨1, .val 1⟩, Op.ins ⟨2, .val 2⟩]).as_slice.dropLast
         else ((Queue.with_capacity 2).run
                [Op.ins ⟨1, .val 1⟩, Op.ins ⟨2, .val 2⟩]).as_slice) :=
  C10_nan_admitted_at_front (by decide) (by decide) rfl

/-! ### Canonical form: the queue is the capacity-prefix of the sorted
stream of distinct entries -/

theorem pairLt_trichotomy {a b : Neighbor} (ha : a.dist ≠ Score.nan)
    (hb : b.dist ≠ Score.nan) : pairLt a b ∨ a = b ∨ pairLt b a := by
  obtain ⟨ia, da⟩ := a
  obtain ⟨ib, db⟩ := b
  obtain ⟨qa, rfl⟩ := Score.exists_val ha
  obtain ⟨qb, rfl⟩ := Score.exists_val hb
  rw [pairLt_mk_iff, pairLt_mk_iff, Neighbor.mk.injEq, Score.val.injEq]
  rcases lt_trichotomy qa qb with h | h | h
  · exact Or.inl (Or.inl h)
  · subst h
    rcases lt_trichotomy ia ib with h2 | h2 | h2
    · exact Or.inl (Or.inr ⟨rfl, h2⟩)
    · exact Or.inr (Or.inl ⟨h2, rfl⟩)
    · exact Or.inr (Or.inr (Or.inr ⟨rfl, h2⟩))
  · exact Or.inr (Or.inr (Or.inl h))

theorem mem_insertSorted {e x : Neighbor} :
    ∀ {F : List Neighbor}, x ∈ insertSorted e F ↔ x = e ∨ x ∈ F := by
  intro F
  induction F with
  | nil => simp [insertSorted]
  | cons y t ih =>
    simp only [insertSorted]
    by_cases h1 : pairLt y e
    · rw [if_pos h1]
      simp only [List.mem_cons, ih]
      tauto
    · rw [if_neg h1]
      by_cases h2 : y = e
      · rw [if_pos h2]
        subst h2
        simp only [List.mem_cons]
        tauto
      · rw [if_neg h2]
        simp only [List.mem_cons]

theorem insertSorted_sorted {F : List Neighbor} {e : Neighbor}
    (hs : F.Pairwise pairLt) (hn : noNaNs F) (he : e.dist ≠ Score.nan) :
    (insertSorted e F).Pairwise pairLt := by
  induction F with
  | nil => simp [insertSorted]
  | cons y t ih =>
    obtain ⟨hyt, hst⟩ := List.pairwise_cons.mp hs
    have hyn : y.dist ≠ Score.nan := hn y (List.mem_cons_self y t)
    have htn : noNaNs t := fun z hz => hn z (List.mem_cons_of_mem y hz)
    simp only [insertSorted]
    by_cases h1 : pairLt y e
    · rw [if_pos h1]
      refine List.pairwise_cons.mpr ⟨?_, ih hst htn⟩
      intro z hz
      rcases mem_insertSorted.mp hz with rfl | hzt
      · exact h1
      · exact hyt z hzt
    · rw [if_neg h1]
      by_cases h2 : y = e
      · rw [if_pos h2]
        exact hs
      · rw [if_neg h2]
        have hey : pairLt e y := by
          rcases pairLt_trichotomy hyn he with h | h | h
          · exact absurd h h1
          · exact absurd h h2
          · exact h
        refine List.pairwise_cons.mpr ⟨?_, hs⟩
        intro z hz
        rcases List.mem_cons.mp hz with rfl | hzt
        · exact hey
        · exact pairLt_trans hey (hyt z hzt)

theorem insertSorted_noNaNs {F : List Neighbor} {e : Neighbor}
    (hn : noNaNs F) (he : e.dist ≠ Score.nan) :
    noNaNs (insertSorted e F) := by
  intro x hx
  rcases mem_insertSorted.mp hx with rfl | h
  · exact he
  · exact hn x h

theorem insertSorted_of_mem {F : List Neighbor} {e : Neighbor}
    (hs : F.Pairwise pairLt) (hmem : e ∈ F) : insertSorted e F = F := by
  induction F with
  | nil => cases hmem
  | cons y t ih =>
    obtain ⟨hyt, hst⟩ := List.pairwise_cons.mp hs
    simp only [insertSorted]
    by_cases h1 : pairLt y e
    · rw [if_pos h1]
      have het : e ∈ t := by
        rcases List.mem_cons.mp hmem with rfl | h
        · exact absurd h1 (pairLt_irrefl e)
        · exact h
      rw [ih hst het]
    · rw [if_neg h1]
      by_cases h2 : y = e
      · rw [if_pos h2]
      · rw [if_neg h2]
        exfalso
        rcases List.mem_cons.mp hmem with heq | h
        · exact h2 heq.symm
        · exact h1 (hyt e h)

theorem insertSorted_decomp {F : List Neighbor} {e : Neighbor}
    (hs : F.Pairwise pairLt) (hn : noNaNs F) (he : e.dist ≠ Score.nan)
    (hnm : e ∉ F) :
    ∃ A B, F = A ++ B ∧ insertSorted e F = A ++ e :: B ∧
      (∀ x ∈ A, pairLt x e) ∧ (∀ x ∈ B, pairLt e x) := by
  induction F with
  | nil =>
    exact ⟨[], [], rfl, rfl, fun x hx => absurd hx (List.not_mem_nil x),
      fun x hx => absurd hx (List.not_mem_nil x)⟩
  | cons y t ih =>
    obtain ⟨hyt, hst⟩ := List.pairwise_cons.mp hs
    have hyn : y.dist ≠ Score.nan := hn y (List.mem_cons_self y t)
    have htn : noNaNs t := fun z hz => hn z (List.mem_cons_of_mem y hz)
    by_cases h1 : pairLt y e
    · have hnm' : e ∉ t := fun h => hnm (List.mem_cons_of_mem y h)
      obtain ⟨A, B, hF, hins, hA, hB⟩ := ih hst htn hnm'
      refine ⟨y :: A, B, ?_, ?_, ?_, hB⟩
      · rw [hF, List.cons_append]
      · show insertSorted e (y :: t) = (y :: A) ++ e :: B
        simp only [insertSorted]
        rw [if_pos h1, hins, List.cons_append]
      · intro x hx
        rcases List.mem_cons.mp hx with rfl | hxA
        · exact h1
        · exact hA x hxA
    · have h2 : y ≠ e := fun h => hnm (h ▸ List.mem_cons_self y t)
      have hey : pairLt e y := by
        rcases pairLt_trichotomy hyn he with h | h | h
        · exact absurd h h1
        · exact absurd h h2
        · exact h
      refine ⟨[], y :: t, rfl, ?_,
        fun x hx => absurd hx (List.not_mem_nil x), ?_⟩
      · show insertSorted e (y :: t) = [] ++ e :: y :: t
        simp only [insertSorted]
        rw [if_neg h1, if_neg h2, List.nil_append]
      · intro x hx
        rcases List.mem_cons.mp hx with rfl | hxt
        · exact hey
        · exact pairLt_trans hey (hyt x hxt)

theorem err_pos_unique {W : List Neighbor} {e : Neighbor} {p1 p2 : ℕ}
    (hp1 : p1 ≤ W.length) (hp2 : p2 ≤ W.length)
    (h1a : ∀ i, i < p1 → pairLt (W.getD i default) e)
    (h1b : ∀ i, p1 ≤ i → i < W.length → pairLt e (W.getD i default))
    (h2a : ∀ i, i < p2 → pairLt (W.getD i default) e)
    (h2b : ∀ i, p2 ≤ i → i < W.length → pairLt e (W.getD i default)) :
    p1 = p2 := by
  rcases lt_trichotomy p1 p2 with h | h | h
  · exact absurd (h2a p1 h) (pairLt_asymm (h1b p1 le_rfl (lt_of_lt_of_le h hp2)))
  · exact h
  · exact absurd (h1a p2 h) (pairLt_asymm (h2b p2 le_rfl (lt_of_lt_of_le h hp1)))

theorem insertIdx_length_append (A B : List Neighbor) (e : Neighbor) :
    (A ++ B).insertIdx A.length e = A ++ e :: B := by
  induction A with
  | nil => rfl
  | cons a A ih =>
    show (a :: (A ++ B)).insertIdx (A.length + 1) e = a :: (A ++ e :: B)
    rw [List.insertIdx_succ_cons, ih]

theorem insert_noop_of_all_lt {q : Queue} {e : Neighbor}
    (hs : q.neighbors.Pairwise pairLt) (hn : noNaNs q.neighbors)
    (he : e.dist ≠ Score.nan)
    (hfull : q.capacity ≤ q.neighbors.length)
    (hworse : ∀ x ∈ q.neighbors, pairLt x e) :
    q.insert e = q := by
  cases hbs : binary_search_by q.neighbors (cmp e) with
  | ok m => exact insert_noop_of_found hbs
  | err p =>
    obtain ⟨hple, hbef, haft⟩ := binary_search_sorted_err hs hn he hbs
    have hp : p = q.neighbors.length := by
      by_contra hne
      have hplt : p < q.neighbors.length := lt_of_le_of_ne hple hne
      have hmem : q.neighbors.getD p default ∈ q.neighbors := by
        rw [List.getD_eq_getElem _ default hplt]
        exact List.getElem_mem hplt
      exact pairLt_asymm (haft p le_rfl hplt) (hworse _ hmem)
    exact insert_noop_of_err_ge hbs (by omega)

/-- One insertion step in canonical form: inserting `e` into a queue
holding the `c`-prefix of the sorted distinct list `F` yields the queue
holding the `c`-prefix of `insertSorted e F`. -/
theorem insert_take_eq {F : List Neighbor} {e : Neighbor} {c : ℕ}
    (hs : F.Pairwise pairLt) (hn : noNaNs F) (he : e.dist ≠ Score.nan)
    (hc : 0 < c) :
    Queue.insert ⟨F.take c, c⟩ e = ⟨(insertSorted e F).take c, c⟩ := by
  have hWs : (F.take c).Pairwise pairLt :=
    List.Pairwise.sublist (List.take_sublist c F) hs
  have hWn : noNaNs (F.take c) := fun x hx => hn x (List.take_subset c F hx)
  have hWlen : (F.take c).length = min c F.length := List.length_take c F
  by_cases hmem : e ∈ F.take c
  · have heF : e ∈ F := List.take_subset c F hmem
    rw [insert_of_mem hWs hWn hmem, insertSorted_of_mem hs heF]
  · by_cases heF : e ∈ F
    · obtain ⟨j, hj, hej⟩ := List.mem_iff_getElem.mp heF
      have hjc : c ≤ j := by
        by_contra hjc
        push_neg at hjc
        apply hmem
        have hjW : j < (F.take c).length := by omega
        have hWj : (F.take c).getD j default = e := by
          rw [List.getD_eq_getElem _ default hjW, List.getElem_take]
          exact hej
        rw [← hWj, List.getD_eq_getElem _ default hjW]
        exact List.getElem_mem hjW
      have hWlt : ∀ x ∈ F.take c, pairLt x e := by
        intro x hx
        obtain ⟨i, hiW, hxi⟩ := List.mem_iff_getElem.mp hx
        have hiF : i < F.length := by omega
        have hij : i < j := by omega
        have hP : pairLt F[i] F[j] :=
          List.pairwise_iff_getElem.mp hs i j hiF hj hij
        rw [hej] at hP
        rw [List.getElem_take] at hxi
        rw [hxi] at hP
        exact hP
      have hnoop : Queue.insert ⟨F.take c, c⟩ e = ⟨F.take c, c⟩ := by
        refine insert_noop_of_all_lt hWs hWn he ?_ hWlt
        show c ≤ (F.take c).length
        omega
      rw [hnoop, insertSorted_of_mem hs heF]
    · obtain ⟨A, B, hF, hins, hA, hB⟩ := insertSorted_decomp hs hn he heF
      subst hF
      rw [hins]
      have hab : (A ++ B).length = A.length + B.length := List.length_append A B
      cases hbs : binary_search_by ((A ++ B).take c) (cmp e) with
      | ok m =>
        exfalso
        obtain ⟨hm, hme⟩ := binary_search_sorted_ok hWs hWn he hbs
        apply heF
        apply List.take_subset c (A ++ B)
        rw [← hme, List.getD_eq_getElem _ default hm]
        exact List.getElem_mem hm
      | err p =>
        obtain ⟨hple, hbef, haft⟩ := binary_search_sorted_err hWs hWn he hbs
        have hpeq : p = min A.length ((A ++ B).take c).length := by
          refine err_pos_unique hple (min_le_right _ _) hbef haft ?_ ?_
          · intro i hi
            have hiW : i < ((A ++ B).take c).length := by omega
            have hiA : i < A.length := by omega
            rw [List.getD_eq_getElem _ default hiW, List.getElem_take,
              List.getElem_append_left hiA]
            exact hA _ (List.getElem_mem hiA)
          · intro i hge hiW
            have hiF : i < (A ++ B).length := by omega
            have hAi : A.length ≤ i := by omega
            rw [List.getD_eq_getElem _ default hiW, List.getElem_take,
              List.getElem_append_right hAi]
            exact hB _ (List.getElem_mem _)
        by_cases hpc : p < c
        · have hres := @insert_at_pos ⟨(A ++ B).take c, c⟩ e p hbs hpc
          have hcap := insert_capacity ⟨(A ++ B).take c, c⟩ e
          cases hq : Queue.insert ⟨(A ++ B).take c, c⟩ e with
          | mk ns cap =>
            rw [hq] at hres hcap
            simp only at hres hcap
            by_cases hfull : ((A ++ B).take c).length = c
            · rw [if_pos hfull] at hres
              have hdrop : ((A ++ B).take c).dropLast = (A ++ B).take (c - 1) := by
                rw [List.dropLast_eq_take, List.take_take]
                congr 1
                omega
              have hpA : p = A.length := by omega
              rw [hdrop] at hres
              have hsplit : (A ++ B).take (c - 1)
                  = A ++ B.take (c - 1 - A.length) := by
                rw [List.take_append_eq_append_take]
                congr 1
                exact List.take_of_length_le (by omega)
              rw [hsplit, hpA, insertIdx_length_append] at hres
              have hrhs : (A ++ e :: B).take c
                  = A ++ e :: B.take (c - 1 - A.length) := by
                rw [List.take_append_eq_append_take,
                  List.take_of_length_le (by omega : A.length ≤ c)]
                congr 1
                rw [show c - A.length = (c - 1 - A.length) + 1 from by omega,
                  List.take_succ_cons]
              rw [hrhs, hres, hcap]
            · rw [if_neg hfull] at hres
              have hlen2 := List.length_take c (A ++ B)
              have hlt : (A ++ B).length < c := by omega
              have hWall : (A ++ B).take c = A ++ B :=
                List.take_of_length_le (by omega)
              have hpA : p = A.length := by omega
              rw [hWall, hpA, insertIdx_length_append] at hres
              have hrhs : (A ++ e :: B).take c = A ++ e :: B := by
                apply List.take_of_length_le
                rw [List.length_append, List.length_cons]
                omega
              rw [hrhs, hres, hcap]
        · have hnoop := @insert_noop_of_err_ge ⟨(A ++ B).take c, c⟩ e p hbs hpc
          rw [hnoop]
          have hWle := List.length_take c (A ++ B)
          have hAc : c ≤ A.length := by omega
          rw [List.take_append_of_le_length hAc,
            List.take_append_of_le_length hAc]

/-- The state after a stream of comparable insertions into a fresh queue
is the capacity-prefix of the canonical sorted list, generalised over the
accumulated canonical list. -/
theorem run_inserts_general (c : ℕ) (hc : 0 < c) :
    ∀ (l F : List Neighbor), F.Pairwise pairLt → noNaNs F →
      (∀ x ∈ l, x.dist ≠ Score.nan) →
      Queue.run ⟨F.take c, c⟩ (l.map Op.ins) =
        ⟨(l.foldl (fun F e => insertSorted e F) F).take c, c⟩ := by
  intro l
  induction l with
  | nil => intro F _ _ _; rfl
  | cons e t ih =>
    intro F hF hFn hl
    have he : e.dist ≠ Score.nan := hl e (List.mem_cons_self e t)
    show Queue.run (Queue.insert ⟨F.take c, c⟩ e) (t.map Op.ins) = _
    rw [insert_take_eq hF hFn he hc]
    exact ih (insertSorted e F) (insertSorted_sorted hF hFn he)
      (insertSorted_noNaNs hFn he) (fun x hx => hl x (List.mem_cons_of_mem e hx))

theorem run_inserts_eq (c : ℕ) (hc : 0 < c) (l : List Neighbor)
    (hl : ∀ x ∈ l, x.dist ≠ Score.nan) :
    (Queue.with_capacity c).run (l.map Op.ins) =
      ⟨(sortedOfStream l).take c, c⟩ := by
  have h := run_inserts_general c hc l [] List.Pairwise.nil
    (fun x hx => absurd hx (List.not_mem_nil x)) hl
  rw [List.take_nil] at h
  exact h

theorem mem_foldl_insertSorted (l : List Neighbor) :
    ∀ (F : List Neighbor) (x : Neighbor),
      x ∈ l.foldl (fun F e => insertSorted e F) F ↔ x ∈ F ∨ x ∈ l := by
  induction l with
  | nil => intro F x; simp
  | cons e t ih =>
    intro F x
    show x ∈ t.foldl (fun F e => insertSorted e F) (insertSorted e F) ↔ _
    rw [ih (insertSorted e F) x, mem_insertSorted]
    simp only [List.mem_cons]
    tauto

theorem mem_sortedOfStream {l : List Neighbor} {x : Neighbor} :
    x ∈ sortedOfStream l ↔ x ∈ l := by
  rw [sortedOfStream, mem_foldl_insertSorted]
  simp

theorem foldl_insertSorted_sorted :
    ∀ (l F : List Neighbor), F.Pairwise pairLt → noNaNs F →
      (∀ x ∈ l, x.dist ≠ Score.nan) →
      (l.foldl (fun F e => insertSorted e F) F).Pairwise pairLt := by
  intro l
  induction l with
  | nil => intro F hF _ _; exact hF
  | cons e t ih =>
    intro F hF hFn hl
    have he : e.dist ≠ Score.nan := hl e (List.mem_cons_self e t)
    exact ih (insertSorted e F) (insertSorted_sorted hF hFn he)
      (insertSorted_noNaNs hFn he) (fun x hx => hl x (List.mem_cons_of_mem e hx))

theorem sortedOfStream_sorted {l : List Neighbor}
    (hl : ∀ x ∈ l, x.dist ≠ Score.nan) :
    (sortedOfStream l).Pairwise pairLt :=
  foldl_insertSorted_sorted l [] List.Pairwise.nil
    (fun x hx => absurd hx (List.not_mem_nil x)) hl

/-- Two strictly sorted lists with the same members are equal. -/
theorem eq_of_sorted_of_same_mem :
    ∀ {L₁ L₂ : List Neighbor}, L₁.Pairwise pairLt → L₂.Pairwise pairLt →
      (∀ x, x ∈ L₁ ↔ x ∈ L₂) → L₁ = L₂ := by
  intro L₁
  induction L₁ with
  | nil =>
    intro L₂ _ _ hmem
    cases L₂ with
    | nil => rfl
    | cons y t₂ =>
      exact absurd ((hmem y).mpr (List.mem_cons_self y t₂)) (List.not_mem_nil y)
  | cons x t ih =>
    intro L₂ h₁ h₂ hmem
    obtain ⟨hxt, hst⟩ := List.pairwise_cons.mp h₁
    cases L₂ with
    | nil =>
      exact absurd ((hmem x).mp (List.mem_cons_self x t)) (List.not_mem_nil x)
    | cons y t₂ =>
      obtain ⟨hyt₂, hst₂⟩ := List.pairwise_cons.mp h₂
      have hxy : x = y := by
        rcases List.mem_cons.mp ((hmem x).mp (List.mem_cons_self x t)) with h | h
        · exact h
        · have hyx : pairLt y x := hyt₂ x h
          rcases List.mem_cons.mp ((hmem y).mpr (List.mem_cons_self y t₂))
            with h' | h'
          · exact h'.symm
          · exact absurd (hxt y h') (pairLt_asymm hyx)
      subst hxy
      have hmem' : ∀ z, z ∈ t ↔ z ∈ t₂ := by
        intro z
        constructor
        · intro hz
          have hxz : pairLt x z := hxt z hz
          rcases List.mem_cons.mp ((hmem z).mp (List.mem_cons_of_mem x hz))
            with h | h
          · subst h; exact absurd hxz (pairLt_irrefl _)
          · exact h
        · intro hz
          have hxz : pairLt x z := hyt₂ z hz
          rcases List.mem_cons.mp ((hmem z).mpr (List.mem_cons_of_mem x hz))
            with h | h
          · subst h; exact absurd hxz (pairLt_irrefl _)
          · exact h
      rw [ih hst hst₂ hmem']

/-- C5: inserting a stream of entries that all carry the same comparable
score into a fresh queue yields, for any two insertion orders
(permutations of each other), the same snapshot, and that snapshot is
ordered by strictly ascending identifier; in particular the tied group
is ordered by ascending identifier regardless of insertion order. -/
theorem C5_tie_break (c : ℕ) (hc : 0 < c) (s : ℚ) (l1 l2 : List Neighbor)
    (hsc : ∀ x ∈ l1, x.dist = Score.val s) (hperm : l1.Perm l2) :
    ((Queue.with_capacity c).run (l1.map Op.ins)).as_slice
      = ((Queue.with_capacity c).run (l2.map Op.ins)).as_slice ∧
    List.Pairwise (fun a b : Neighbor => a.id < b.id)
      ((Queue.with_capacity c).run (l1.map Op.ins)).as_slice := by
  have hn1 : ∀ x ∈ l1, x.dist ≠ Score.nan := by
    intro x hx
    rw [hsc x hx]
    intro h
    cases h
  have hn2 : ∀ x ∈ l2, x.dist ≠ Score.nan := by
    intro x hx
    exact hn1 x (hperm.mem_iff.mpr hx)
  rw [run_inserts_eq c hc l1 hn1, run_inserts_eq c hc l2 hn2]
  have hs1 := sortedOfStream_sorted hn1
  have hs2 := sortedOfStream_sorted hn2
  have hss : sortedOfStream l1 = sortedOfStream l2 := by
    refine eq_of_sorted_of_same_mem hs1 hs2 ?_
    intro x
    rw [mem_sortedOfStream, mem_sortedOfStream]
    exact hperm.mem_iff
  constructor
  · rw [hss]
  · show List.Pairwise _ ((sortedOfStream l1).take c)
    have hsub : ((sortedOfStream l1).take c).Pairwise pairLt :=
      List.Pairwise.sublist (List.take_sublist c _) hs1
    refine List.Pairwise.imp_of_mem ?_ hsub
    intro a b ha hb hab
    have hda : a.dist = Score.val s :=
      hsc a (mem_sortedOfStream.mp (List.take_subset c _ ha))
    have hdb : b.dist = Score.val s :=
      hsc b (mem_sortedOfStream.mp (List.take_subset c _ hb))
    rcases hab with h | ⟨-, h⟩
    · rw [hda, hdb] at h
      simp [Score.flt] at h
    · exact h

/-- C5 witness: the spec's concrete scenario — ids 5 then 3 at score 1.0
on a fresh capacity-2 queue against the opposite order, together with the
concrete resulting snapshot. -/
theorem C5_tie_break_witness :
    (((Queue.with_capacity 2).run
        ([⟨5, Score.val 1⟩, ⟨3, Score.val 1⟩].map Op.ins)).as_slice
      = ((Queue.with_capacity 2).run
          ([⟨3, Score.val 1⟩, ⟨5, Score.val 1⟩].map Op.ins)).as_slice ∧
     List.Pairwise (fun a b : Neighbor => a.id < b.id)
      ((Queue.with_capacity 2).run
        ([⟨5, Score.val 1⟩, ⟨3, Score.val 1⟩].map Op.ins)).as_slice) ∧
    ((Queue.with_capacity 2).run
        ([⟨5, Score.val 1⟩, ⟨3, Score.val 1⟩].map Op.ins)).as_slice
      = [⟨3, Score.val 1⟩, ⟨5, Score.val 1⟩] :=
  ⟨C5_tie_break 2 (by decide) 1 [⟨5, Score.val 1⟩, ⟨3, Score.val 1⟩]
      [⟨3, Score.val 1⟩, ⟨5, Score.val 1⟩] (by decide) (by decide),
    by decide⟩

end PQueue
